import Mathlib

/-!
Verification development for the scylla-cdc-rust repository.

The repository's crate declares four modules (`cdc_types`, `consumer`,
`reader`, `stream_generations`) and ships an end-to-end test harness in
`src/scylla-cdc/src/lib.rs` (the `tests` module: `TestConsumer`,
`TestConsumerFactory`, `fail_test`, `Test`, `sample_test`).

Only the test harness source is available; the `consumer`, `reader` and
`stream_generations` module bodies are not.  Consequently:

* `TestConsumer::consume_cdc`, `TestConsumerFactory::new_consumer` and the
  `Operation` bookkeeping are embedded directly from the source of
  `src/scylla-cdc/src/lib.rs`;
* the generation tracker, log reader (windowed polling, in-window sorting,
  checkpointing) and row decoder (column states, deletion markers,
  range-delete fragment pairing) are modelled from the specification's
  description of those components, as indicated on each definition.
-/

set_option maxHeartbeats 1600000

deriving instance DecidableEq for Except

namespace ScyllaCdc

/-! ## Positions: (write timestamp, batch sequence number), ordered lexicographically -/

/-- A stream position: (write timestamp, batch sequence number). -/
abbrev Pos := Nat × Nat

/-- Lexicographic `≤` on positions. -/
def posLe (a b : Pos) : Prop := a.1 < b.1 ∨ (a.1 = b.1 ∧ a.2 ≤ b.2)

/-- Lexicographic `<` on positions. -/
def posLt (a b : Pos) : Prop := a.1 < b.1 ∨ (a.1 = b.1 ∧ a.2 < b.2)

instance : DecidableRel posLe := fun a b => by unfold posLe; infer_instance

instance : DecidableRel posLt := fun a b => by unfold posLt; infer_instance

/-! ## Raw log rows (modelled from the spec, §3/§6)

Modelled from the spec: the raw log-shard row format of the missing `reader` /
`cdc_types` modules.  Control columns: write time, batch sequence number,
fragment index, batch id (per §3 a RangeDeleteStart/RangeDeleteEnd pair shares
a batch id), operation code.  (The stream-id, time-to-live and end-of-batch
control columns are carried by the shard but assigned no behaviour by the
spec's algorithms, so they are omitted.)  Each shadowed base-table column
carries a value, a companion deletion-marker column, and the per-element
deleted-elements column of a non-frozen collection. -/

/-- A database cell value (the subset of CQL values the scenarios use). -/
inductive CqlValue
  | int (i : Int)
  | text (s : String)
deriving DecidableEq, Repr

/-- Raw per-column data of a log row: the shadowed value, the companion
deletion-marker column, and the per-element deletions of a non-frozen
collection (empty for scalar / frozen-collection columns). -/
structure RawCell where
  value : Option CqlValue
  isDeleted : Bool
  deletedElems : List CqlValue
deriving DecidableEq, Repr

/-- Raw operation code of a log row (spec §3): the inclusivity flag of a
range-delete bound is encoded in its fragment's operation code. -/
inductive RawOp
  | insert
  | updateRow
  | rowDelete
  | partitionDelete
  | rangeDeleteStart (inclusive : Bool)
  | rangeDeleteEnd (inclusive : Bool)
deriving DecidableEq, Repr

/-- One raw row of a stream's log shard. -/
structure RawRow where
  ts : Nat
  batchSeq : Nat
  frag : Nat
  batchId : Nat
  op : RawOp
  cells : List (String × RawCell)
deriving DecidableEq, Repr

/-- The position of a raw row: (write timestamp, batch sequence number). -/
def RawRow.pos (r : RawRow) : Pos := (r.ts, r.batchSeq)

/-- Sort key order used inside a poll window (spec §4.2): sort by
(timestamp, batch sequence number, fragment index). -/
def rowLe (a b : RawRow) : Prop :=
  a.ts < b.ts ∨ (a.ts = b.ts ∧ (a.batchSeq < b.batchSeq ∨
    (a.batchSeq = b.batchSeq ∧ a.frag ≤ b.frag)))

instance : DecidableRel rowLe := fun a b => by unfold rowLe; infer_instance

instance : IsTotal RawRow rowLe := ⟨by intro a b; unfold rowLe; omega⟩

instance : IsTrans RawRow rowLe := ⟨by intro a b c; unfold rowLe; omega⟩

/-! ## LogReader: poll windows (modelled from the spec, §4.2)

Modelled from the spec: the missing `reader` module.  A poll window selects
the shard rows with position in `[checkpoint, upper)`, sorts them by
(timestamp, batch sequence number, fragment index), delivers them in order,
and, if the window was non-empty, persists a new checkpoint equal to the
window's end position; an empty window leaves the checkpoint unchanged. -/

/-- Does the row's position fall in the half-open position range `[lo, hi)`? -/
def inRange (lo hi : Pos) (r : RawRow) : Bool :=
  decide (posLe lo r.pos) && decide (posLt r.pos hi)

/-- The rows of one poll window `[lo, hi)` of a shard, in delivery order. -/
def window (shard : List RawRow) (lo hi : Pos) : List RawRow :=
  List.insertionSort rowLe (shard.filter (inRange lo hi))

/-- LogReader state: persisted checkpoint and the history of rows delivered
to the stream's Consumer. -/
structure ReaderState where
  cp : Pos
  delivered : List RawRow
deriving DecidableEq, Repr

/-- One poll step: deliver the window `[cp, upper)` and advance the
checkpoint to the window's end position (empty windows do not advance). -/
def pollStep (shard : List RawRow) (st : ReaderState) (upper : Pos) : ReaderState :=
  let w := window shard st.cp upper
  if w.isEmpty then st else { cp := upper, delivered := st.delivered ++ w }

/-- The reader's polling loop over a sequence of window end positions. -/
def run (shard : List RawRow) (st : ReaderState) (uppers : List Pos) : ReaderState :=
  uppers.foldl (pollStep shard) st

/-- One poll step with a fallible Consumer (`ok r` tells whether the Consumer
processes row `r` successfully).  Entries are delivered one at a time in
sorted order up to the first failure; the checkpoint is advanced to the
window's end position only when every entry of the window was processed,
and a Consumer failure is fatal to the stream (second component `false`). -/
def pollStepFallible (ok : RawRow → Bool) (shard : List RawRow) (st : ReaderState)
    (upper : Pos) : ReaderState × Bool :=
  let w := window shard st.cp upper
  if w.all ok then
    ({ cp := if w.isEmpty then st.cp else upper, delivered := st.delivered ++ w }, true)
  else
    ({ cp := st.cp, delivered := st.delivered ++ w.takeWhile ok }, false)

/-! ## RowDecoder (modelled from the spec, §4.3 and §3)

Modelled from the spec: the missing `RowDecoder` of the `reader`/`cdc_types`
modules.  A decoded LogEntry maps each base-table column to one of three
states; presence of the companion deletion-marker column (independent of
whether the value column is null) determines explicitly-deleted vs present vs
unmentioned.  A per-element mutation of a non-frozen collection (a non-empty
deleted-elements column) is reported as an explicit "unsupported" decode
failure.  A RangeDeleteStart fragment is correlated with the RangeDeleteEnd
fragment sharing its batch id into one logical range-delete LogEntry carrying
both bounds and both inclusivity flags; a fragment unmatched at end-of-window
is held back to the next window. -/

/-- The three states of a base-table column in a LogEntry (spec §3). -/
inductive ColState
  | present (v : CqlValue)
  | deleted
  | unmentioned
deriving DecidableEq, Repr

/-- Operation kind of a LogEntry as exposed to consumers (spec §3);
range deletions are exposed as one reconstructed logical operation. -/
inductive OperationType
  | insert
  | updateRow
  | rowDelete
  | partitionDelete
  | rangeDelete
deriving DecidableEq, Repr

/-- Logical operation of a LogEntry; a reconstructed range delete carries
both clustering-key bounds and both inclusivity flags. -/
inductive LogOp
  | insert
  | updateRow
  | rowDelete
  | partitionDelete
  | rangeDelete (lo : List CqlValue) (loIncl : Bool) (hi : List CqlValue) (hiIncl : Bool)
deriving DecidableEq, Repr

/-- One logical mutation as delivered to a Consumer (spec §3: "LogEntry
(CDCRow)"). -/
structure LogEntry where
  op : LogOp
  ts : Nat
  batchSeq : Nat
  cols : List (String × ColState)
deriving DecidableEq, Repr

/-- The position of a LogEntry: (write timestamp, batch sequence number). -/
def LogEntry.pos (e : LogEntry) : Pos := (e.ts, e.batchSeq)

/-- Collapse a logical operation to its plain operation kind. -/
def LogOp.opType : LogOp → OperationType
  | .insert => .insert
  | .updateRow => .updateRow
  | .rowDelete => .rowDelete
  | .partitionDelete => .partitionDelete
  | .rangeDelete _ _ _ _ => .rangeDelete

/-- Operation kind accessor of the LogEntry view (`CDCRow::operation`). -/
def LogEntry.operation (e : LogEntry) : OperationType := e.op.opType

/-- Value accessor of the LogEntry view: the value of a column, `none` when
the column is explicitly deleted, unmentioned or unknown (`CDCRow::get_value`). -/
def LogEntry.getValue (e : LogEntry) (name : String) : Option CqlValue :=
  match e.cols.lookup name with
  | some (.present v) => some v
  | _ => none

/-- Deletion query of the LogEntry view: is the column explicitly deleted
(`CDCRow::is_value_deleted`)? -/
def LogEntry.isDeleted (e : LogEntry) (name : String) : Bool :=
  match e.cols.lookup name with
  | some .deleted => true
  | _ => false

/-- Take a column's value out of the entry, leaving the column unmentioned
(`CDCRow::take_value`). -/
def LogEntry.takeValue (e : LogEntry) (name : String) : Option CqlValue × LogEntry :=
  (e.getValue name,
   { e with cols := e.cols.map (fun c => if c.1 = name then (c.1, ColState.unmentioned) else c) })

/-- Classify one raw cell (spec §4.3): the deletion marker, independent of
whether the value column is null, decides explicitly-deleted; otherwise a
non-null value is present and a null value is unmentioned. -/
def decodeCell (c : RawCell) : ColState :=
  if c.isDeleted then .deleted
  else match c.value with
    | some v => .present v
    | none => .unmentioned

/-- Column states of a decoded row. -/
def decodeCells (cells : List (String × RawCell)) : List (String × ColState) :=
  cells.map (fun c => (c.1, decodeCell c.2))

/-- Decode error (spec §4.3/§7(b)): a per-element mutation of a non-frozen
collection is reported as an explicit unsupported failure naming the column. -/
inductive DecodeError
  | unsupportedNonFrozen (col : String)
deriving DecidableEq, Repr

/-- The first column of a raw row carrying a per-element mutation of a
non-frozen collection, if any. -/
def nonFrozenCol (r : RawRow) : Option String :=
  (r.cells.find? (fun c => !c.2.deletedElems.isEmpty)).map (fun c => c.1)

/-- Is the row a RangeDeleteStart fragment? -/
def isStart (r : RawRow) : Bool :=
  match r.op with
  | .rangeDeleteStart _ => true
  | _ => false

/-- Is the row a RangeDeleteEnd fragment? -/
def isEnd (r : RawRow) : Bool :=
  match r.op with
  | .rangeDeleteEnd _ => true
  | _ => false

/-- Is the row a range-delete fragment? -/
def isFrag (r : RawRow) : Bool := isStart r || isEnd r

/-- Are two rows matching range-delete fragments: one start and one end
sharing the same batch id (spec §3/§4.3)? -/
def fragMatches (r r' : RawRow) : Bool :=
  r.batchId == r'.batchId && ((isStart r && isEnd r') || (isEnd r && isStart r'))

/-- The clustering-key bound carried by a range-delete fragment: the non-null
values of its cells. -/
def RawRow.bound (r : RawRow) : List CqlValue :=
  r.cells.filterMap (fun c => c.2.value)

/-- The inclusivity flag encoded in a fragment's operation code. -/
def inclOf (r : RawRow) : Bool :=
  match r.op with
  | .rangeDeleteStart i => i
  | .rangeDeleteEnd i => i
  | _ => false

/-- Map a non-range raw operation code to its logical operation (the
range-fragment cases are unreachable: `stepRow` routes fragments to the
pairing logic and never decodes them as single rows). -/
def decodeOp (o : RawOp) : LogOp :=
  match o with
  | .insert => .insert
  | .updateRow => .updateRow
  | .rowDelete => .rowDelete
  | .partitionDelete => .partitionDelete
  | .rangeDeleteStart _ => .partitionDelete
  | .rangeDeleteEnd _ => .partitionDelete

/-- Decode one non-fragment raw row into a LogEntry. -/
def decodeRow (r : RawRow) : LogEntry :=
  { op := decodeOp r.op, ts := r.ts, batchSeq := r.batchSeq, cols := decodeCells r.cells }

/-- The reconstructed logical range-delete LogEntry of a matched pair of
fragments, carrying both bounds and both inclusivity flags; its position is
the position of the fragment that completed the pair (`snd`). -/
def pairEntry (s e snd : RawRow) : LogEntry :=
  { op := .rangeDelete s.bound (inclOf s) e.bound (inclOf e),
    ts := snd.ts, batchSeq := snd.batchSeq, cols := [] }

/-- Remove the first element satisfying `p` (the matched fragment) from the
held-back list. -/
def removeFirst (p : RawRow → Bool) : List RawRow → List RawRow
  | [] => []
  | x :: xs => if p x then xs else x :: removeFirst p xs

/-- Decoder state over one window: fragments held back awaiting their
counterpart, and the LogEntries emitted so far. -/
structure DecState where
  pend : List RawRow
  out : List LogEntry
deriving DecidableEq, Repr

/-- Decode one raw row of a window: report a per-element non-frozen
collection mutation as unsupported; pair a range-delete fragment with a
held-back counterpart sharing its batch id (else hold it back); emit any
other row as one decoded LogEntry. -/
def stepRow (st : DecState) (r : RawRow) : Except DecodeError DecState :=
  match nonFrozenCol r with
  | some c => .error (.unsupportedNonFrozen c)
  | none =>
    if isStart r then
      match st.pend.find? (fun p => isEnd p && p.batchId == r.batchId) with
      | some e =>
        .ok { pend := removeFirst (fun p => isEnd p && p.batchId == r.batchId) st.pend,
              out := st.out ++ [pairEntry r e r] }
      | none => .ok { pend := st.pend ++ [r], out := st.out }
    else if isEnd r then
      match st.pend.find? (fun p => isStart p && p.batchId == r.batchId) with
      | some s =>
        .ok { pend := removeFirst (fun p => isStart p && p.batchId == r.batchId) st.pend,
              out := st.out ++ [pairEntry s r r] }
      | none => .ok { pend := st.pend ++ [r], out := st.out }
    else .ok { pend := st.pend, out := st.out ++ [decodeRow r] }

/-- Decode the rows of one window in delivery order. -/
def decodeRows (st : DecState) : List RawRow → Except DecodeError DecState
  | [] => .ok st
  | r :: rs =>
    match stepRow st r with
    | .error e => .error e
    | .ok st' => decodeRows st' rs

/-- Decode one window given the fragments held back from the previous window:
returns the LogEntries to deliver and the fragments held back to the next
window. -/
def decodeWindow (pending rows : List RawRow) :
    Except DecodeError (List LogEntry × List RawRow) :=
  (decodeRows { pend := pending, out := [] } rows).map (fun st => (st.out, st.pend))

/-! ## Full per-stream pipeline (modelled from the spec, §4.2/§4.3)

Modelled from the spec: one stream task = windowed polling (LogReader)
composed with the RowDecoder, delivering decoded LogEntries to the stream's
Consumer in order. -/

/-- State of one stream task: persisted checkpoint, fragments held back
across windows, and the history of LogEntries delivered to the Consumer. -/
structure PipeState where
  cp : Pos
  pend : List RawRow
  out : List LogEntry
deriving DecidableEq, Repr

/-- One poll window of the pipeline: select and sort the window's rows,
decode them (pairing range fragments with held-back ones), deliver the
decoded entries, and advance the checkpoint to the window's end position
(an empty window does not advance; a decode error is fatal to the stream). -/
def pipeStep (shard : List RawRow) (st : PipeState) (upper : Pos) :
    Except DecodeError PipeState :=
  let w := window shard st.cp upper
  match decodeRows { pend := st.pend, out := [] } w with
  | .error e => .error e
  | .ok d =>
    .ok { cp := if w.isEmpty then st.cp else upper, pend := d.pend, out := st.out ++ d.out }

/-- The pipeline's polling loop over a sequence of window end positions. -/
def pipeRun (shard : List RawRow) (st : PipeState) :
    List Pos → Except DecodeError PipeState
  | [] => .ok st
  | u :: us =>
    match pipeStep shard st u with
    | .error e => .error e
    | .ok st' => pipeRun shard st' us

/-! ## GenerationTracker: fetchGenerations retry (modelled from the spec, §4.1/§7)

Modelled from the spec: the missing `stream_generations` module.
`fetchGenerations` is a blocking network call, retried with (exponential)
backoff on transient failure, fatal after exhausting its retries.  The
network is modelled as `attempts : Nat → Option α` giving the result of the
i-th query attempt (`none` = transient failure); the returned list records
the backoff delay slept before each retry. -/

/-- Retry loop of `fetchGenerations`: at most `retries` retries after the
first attempt, sleeping `delay` (doubled each time) between attempts. -/
def fetchGenAux {α : Type} (attempts : Nat → Option α) (i : Nat) (delay : Nat) :
    Nat → Except String α × List Nat
  | 0 =>
    match attempts i with
    | some g => (.ok g, [])
    | none => (.error "generation discovery failed: retries exhausted", [])
  | n + 1 =>
    match attempts i with
    | some g => (.ok g, [])
    | none =>
      let r := fetchGenAux attempts (i + 1) (2 * delay) n
      (r.1, delay :: r.2)

/-- `fetchGenerations` (spec §4.1): query the cluster's generation records,
retrying with backoff on transient failure, fatal after exhausting
`maxRetries` retries. -/
def fetchGenerations {α : Type} (attempts : Nat → Option α) (maxRetries baseDelay : Nat) :
    Except String α × List Nat :=
  fetchGenAux attempts 0 baseDelay maxRetries

/-! ## The test harness (embedded from `src/scylla-cdc/src/lib.rs`)

The `tests` module of the crate: `Operation`, `fail_test`, `TestConsumer`,
`TestConsumerFactory`.  The row handed to `consume_cdc` is a `CDCRow`, i.e.
the LogEntry view above.  The Rust code can exit `consume_cdc` three ways:
return `Ok(())`, return `Err` (the `?` on the partition-key conversion), or
panic (`unwrap`/`expect` failures); panics are modelled explicitly. -/

/-- An expected operation of the harness (`type Operation`): operation type,
expected clustering-key columns, expected other columns (`None` = expected
deleted). -/
def Operation : Type :=
  OperationType × List (String × CqlValue) × List (String × Option CqlValue)

instance : DecidableEq Operation := by unfold Operation; infer_instance

/-- The expected-operations map `HashMap<T, VecDeque<Operation>>`, as an
association list keyed by partition-key value. -/
def OpsMap (T : Type) : Type := List (T × List Operation)

instance {T : Type} [DecidableEq T] : DecidableEq (OpsMap T) := by
  unfold OpsMap; infer_instance

/-- `HashMap::get` on the expected-operations map. -/
def lookupOps {T : Type} [DecidableEq T] : OpsMap T → T → Option (List Operation)
  | [], _ => none
  | (k, v) :: rest, key => if k = key then some v else lookupOps rest key

/-- Replace the queue of an existing key of the expected-operations map
(the effect of `get_mut` + `pop_front` through the shared reference). -/
def setOps {T : Type} [DecidableEq T] : OpsMap T → T → List Operation → OpsMap T
  | [], _, _ => []
  | (k, v) :: rest, key, q => if k = key then (k, q) :: rest else (k, v) :: setOps rest key q

/-- How one call of `TestConsumer::consume_cdc` exits: normal `Ok(())`
return, `Err` return (from the `?` operator), or a panic from a failed
`unwrap`/`expect`. -/
inductive ConsumeResult
  | ok
  | err
  | panicked
deriving DecidableEq, Repr

/-- The observable outcome of one `consume_cdc` call: how it exited, the
expected-operations map afterwards, and the messages `fail_test` printed to
stderr. -/
structure ConsumeOut (T : Type) where
  result : ConsumeResult
  ops : OpsMap T
  stderr : List String
deriving DecidableEq

/-- The clustering-key check of `consume_cdc` (the `ck_ok` fold): compare
each expected clustering-key column against `get_value`; `none` models the
panic of the `.expect(&format!("Column {} not found", name))` on a column
with no value. -/
def checkCk (expected : List (String × CqlValue)) (row : LogEntry) : Option Bool :=
  match expected with
  | [] => some true
  | (name, value) :: rest =>
    match row.getValue name with
    | none => none
    | some w =>
      match checkCk rest row with
      | none => none
      | some b => some (decide (value = w) && b)

/-- The column-values check of `consume_cdc` (the `values_ok` fold): an
expected `Some` value is compared against `get_value` (`none` models the
panic of the `.unwrap()` on a column with no value); an expected `None`
checks `is_value_deleted`. -/
def checkVals (expected : List (String × Option CqlValue)) (row : LogEntry) : Option Bool :=
  match expected with
  | [] => some true
  | (name, some val) :: rest =>
    match row.getValue name with
    | none => none
    | some w =>
      match checkVals rest row with
      | none => none
      | some b => some (decide (val = w) && b)
  | (name, none) :: rest =>
    match checkVals rest row with
    | none => none
    | some b => some (row.isDeleted name && b)

/-- `TestConsumer::consume_cdc`, embedded from `src/scylla-cdc/src/lib.rs`
lines 53–98.  `fromCql` models `T::from_cql` (`none` = conversion error
propagated by `?`).  Steps, in source order: take the partition-key value
(`unwrap` panics on a null value), convert it (`?` returns `Err`), pop the
front of that key's queue (`unwrap` panics on a missing key or an empty
queue), then run the operation-type, clustering-key and value checks, each
mismatch only printing a message via `fail_test`, and return `Ok(())`. -/
def consume_cdc {T : Type} [DecidableEq T] (fromCql : CqlValue → Option T)
    (ops : OpsMap T) (pk : String) (row : LogEntry) : ConsumeOut T :=
  match (row.takeValue pk).1 with
  | none => { result := .panicked, ops := ops, stderr := [] }
  | some raw =>
    let row' := (row.takeValue pk).2
    match fromCql raw with
    | none => { result := .err, ops := ops, stderr := [] }
    | some pkVal =>
      match lookupOps ops pkVal with
      | none => { result := .panicked, ops := ops, stderr := [] }
      | some [] => { result := .panicked, ops := ops, stderr := [] }
      | some (op :: rest) =>
        let ops' := setOps ops pkVal rest
        let m1 : List String :=
          if op.1 = row'.operation then [] else ["Operation type not matching."]
        match checkCk op.2.1 row' with
        | none => { result := .panicked, ops := ops', stderr := m1 }
        | some ckOk =>
          let m2 := m1 ++ (if ckOk then [] else ["Clustering keys not matching."])
          match checkVals op.2.2 row' with
          | none => { result := .panicked, ops := ops', stderr := m2 }
          | some valsOk =>
            { result := .ok, ops := ops',
              stderr := m2 ++ (if valsOk then [] else ["Values not matching."]) }

/-- The shared heap cell `Arc<Mutex<HashMap<T, VecDeque<Operation>>>>`:
a store maps cell identifiers to maps. -/
def Store (T : Type) : Type := Nat → OpsMap T

/-- `struct TestConsumer` (lines 34–37): a cloned handle to the shared
expected-operations cell, and the partition-key column name. -/
structure TestConsumer (T : Type) where
  read_operations : Nat
  pk : String
deriving DecidableEq, Repr

/-- `struct TestConsumerFactory` (lines 101–104): the factory's own handle
to the shared expected-operations cell, and the partition-key column name. -/
structure TestConsumerFactory (T : Type) where
  read_operations : Nat
  pk : String
deriving DecidableEq, Repr

/-- `TestConsumerFactory::new` (lines 106–113): `Arc::new(Mutex::new(ops))`
allocates a fresh cell `cell` holding `ops`; the factory keeps the handle. -/
def TestConsumerFactory.mk' {T : Type} (pk : String) (cell : Nat) :
    TestConsumerFactory T :=
  { read_operations := cell, pk := pk }

/-- `TestConsumerFactory::new_consumer` (lines 119–124): the returned
consumer holds `Arc::clone(&self.read_operations)` — the same cell — and a
clone of the factory's partition-key name. -/
def TestConsumerFactory.new_consumer {T : Type} (f : TestConsumerFactory T) :
    TestConsumer T :=
  { read_operations := f.read_operations, pk := f.pk }

/-- One `consume_cdc` call of a consumer against the shared store: lock the
cell, run the body, write the updated map back to the same cell. -/
def TestConsumer.consume {T : Type} [DecidableEq T] (fromCql : CqlValue → Option T)
    (c : TestConsumer T) (store : Store T) (row : LogEntry) :
    ConsumeResult × Store T × List String :=
  let r := consume_cdc fromCql (store c.read_operations) c.pk row
  (r.result, fun n => if n = c.read_operations then r.ops else store n, r.stderr)

/-! ## Concrete inputs for the end-to-end scenario and the witnesses -/

/-- `FromCqlVal<CqlValue> for i32`: conversion succeeds exactly on `int`. -/
def fromCqlInt : CqlValue → Option Int
  | .int i => some i
  | _ => none

/-- A minimal raw row used by witnesses. -/
def rowA : RawRow :=
  { ts := 1, batchSeq := 0, frag := 0, batchId := 0, op := .insert, cells := [] }

/-- Raw log row of `INSERT INTO int_test (pk, ck, v) VALUES (1, 1, 10)`. -/
def rawInsert : RawRow :=
  { ts := 1, batchSeq := 0, frag := 0, batchId := 1, op := .insert,
    cells := [("pk", { value := some (.int 1), isDeleted := false, deletedElems := [] }),
              ("ck", { value := some (.int 1), isDeleted := false, deletedElems := [] }),
              ("v", { value := some (.int 10), isDeleted := false, deletedElems := [] })] }

/-- Raw log row of `UPDATE int_test SET v = 20 WHERE pk = 1 AND ck = 1`. -/
def rawUpdate : RawRow :=
  { ts := 2, batchSeq := 0, frag := 0, batchId := 2, op := .updateRow,
    cells := [("pk", { value := some (.int 1), isDeleted := false, deletedElems := [] }),
              ("ck", { value := some (.int 1), isDeleted := false, deletedElems := [] }),
              ("v", { value := some (.int 20), isDeleted := false, deletedElems := [] })] }

/-- Raw log row of `DELETE v FROM int_test WHERE pk = 1 AND ck = 1`: the
value column is null and the companion deletion-marker column is set. -/
def rawDeleteV : RawRow :=
  { ts := 3, batchSeq := 0, frag := 0, batchId := 3, op := .updateRow,
    cells := [("pk", { value := some (.int 1), isDeleted := false, deletedElems := [] }),
              ("ck", { value := some (.int 1), isDeleted := false, deletedElems := [] }),
              ("v", { value := none, isDeleted := true, deletedElems := [] })] }

/-- The scenario's log shard, in raw (non-sorted) arrival order: log rows can
arrive out of physical order within one window. -/
def scenarioShard : List RawRow := [rawUpdate, rawDeleteV, rawInsert]

/-- The LogEntry sequence the Consumer is expected to receive for the
scenario. -/
def scenarioExpected : List LogEntry :=
  [{ op := .insert, ts := 1, batchSeq := 0,
     cols := [("pk", .present (.int 1)), ("ck", .present (.int 1)), ("v", .present (.int 10))] },
   { op := .updateRow, ts := 2, batchSeq := 0,
     cols := [("pk", .present (.int 1)), ("ck", .present (.int 1)), ("v", .present (.int 20))] },
   { op := .updateRow, ts := 3, batchSeq := 0,
     cols := [("pk", .present (.int 1)), ("ck", .present (.int 1)), ("v", .deleted)] }]

/-- A RangeDeleteStart fragment with batch id `b`, one clustering-key bound
value and an inclusivity flag. -/
def startFrag (b t s f : Nat) (lo : CqlValue) (loIncl : Bool) : RawRow :=
  { ts := t, batchSeq := s, frag := f, batchId := b, op := .rangeDeleteStart loIncl,
    cells := [("ck", { value := some lo, isDeleted := false, deletedElems := [] })] }

/-- A RangeDeleteEnd fragment with batch id `b`, one clustering-key bound
value and an inclusivity flag. -/
def endFrag (b t s f : Nat) (hi : CqlValue) (hiIncl : Bool) : RawRow :=
  { ts := t, batchSeq := s, frag := f, batchId := b, op := .rangeDeleteEnd hiIncl,
    cells := [("ck", { value := some hi, isDeleted := false, deletedElems := [] })] }

/-- A raw row carrying a per-element mutation of a non-frozen collection
column `s`: its deleted-elements column is non-empty. -/
def rowNonFrozen : RawRow :=
  { ts := 4, batchSeq := 0, frag := 0, batchId := 4, op := .updateRow,
    cells := [("pk", { value := some (.int 1), isDeleted := false, deletedElems := [] }),
              ("s", { value := none, isDeleted := false, deletedElems := [.int 2] })] }

/-- Origin of an emitted range-delete LogEntry: if the entry's operation is a
logical range delete, it was reconstructed from a start fragment and an end
fragment, both drawn from `S`, sharing one batch id, and contributing their
own bound and inclusivity flag. -/
def RangeOrigin (S : RawRow → Prop) (e : LogEntry) : Prop :=
  (∃ lo loI hi hiI, e.op = .rangeDelete lo loI hi hiI) →
    ∃ s en : RawRow, S s ∧ S en ∧ isStart s = true ∧ isEnd en = true ∧
      s.batchId = en.batchId ∧
      e.op = .rangeDelete s.bound (inclOf s) en.bound (inclOf en)

/-- A CDCRow whose expected operation lists clustering-key column "ck", but
whose "ck" value is null: the harness's `.expect` panics on it. -/
def rowCkNull : LogEntry :=
  { op := .insert, ts := 1, batchSeq := 0,
    cols := [("pk", .present (.int 1)), ("ck", .unmentioned)] }

/-- The expected-operations map for the C9 counterexample. -/
def opsCkMap : OpsMap Int := [(1, [(.insert, [("ck", .int 1)], [])])]

/-- A CDCRow whose operation type mismatches the expected operation while
every compared column has a value. -/
def rowOpMismatch : LogEntry :=
  { op := .updateRow, ts := 1, batchSeq := 0,
    cols := [("pk", .present (.int 1)), ("ck", .present (.int 1))] }

/-- A CDCRow matching the single expected insert of `c10Store`. -/
def rowShared : LogEntry :=
  { op := .insert, ts := 1, batchSeq := 0, cols := [("pk", .present (.int 1))] }

/-- A store with one cell holding one expected operation for key 1. -/
def c10Store : Store Int := fun _ => [(1, [(.insert, [], [])])]

/-! # Theorems -/

/-! ## Position order facts -/

theorem posLe_refl (a : Pos) : posLe a a := by unfold posLe; omega

theorem posLe_trans {a b c : Pos} (h1 : posLe a b) (h2 : posLe b c) : posLe a c := by
  unfold posLe at *; omega

theorem posLt_of_posLe_of_posLt {a b c : Pos} (h1 : posLe a b) (h2 : posLt b c) :
    posLt a c := by
  unfold posLe posLt at *; omega

theorem posLe_of_posLt {a b : Pos} (h : posLt a b) : posLe a b := by
  unfold posLe posLt at *; omega

theorem posLt_of_posLt_of_posLe {a b c : Pos} (h1 : posLt a b) (h2 : posLe b c) :
    posLt a c := by
  unfold posLe posLt at *; omega

theorem posLe_of_rowLe {a b : RawRow} (h : rowLe a b) : posLe a.pos b.pos := by
  unfold rowLe at h; unfold posLe RawRow.pos; omega

/-! ## Window facts -/

theorem inRange_iff {lo hi : Pos} {r : RawRow} :
    inRange lo hi r = true ↔ posLe lo r.pos ∧ posLt r.pos hi := by
  simp [inRange]

theorem window_sorted (shard : List RawRow) (lo hi : Pos) :
    List.Sorted rowLe (window shard lo hi) :=
  List.sorted_insertionSort rowLe _

theorem window_perm (shard : List RawRow) (lo hi : Pos) :
    (window shard lo hi).Perm (shard.filter (inRange lo hi)) :=
  List.perm_insertionSort rowLe _

theorem mem_window {shard : List RawRow} {lo hi : Pos} {r : RawRow} :
    r ∈ window shard lo hi ↔ r ∈ shard ∧ inRange lo hi r = true := by
  rw [(window_perm shard lo hi).mem_iff, List.mem_filter]

theorem window_cp_le {shard : List RawRow} {lo hi : Pos}
    (h : window shard lo hi ≠ []) : posLt lo hi := by
  obtain ⟨r, hr⟩ := List.exists_mem_of_ne_nil _ h
  obtain ⟨-, hir⟩ := mem_window.1 hr
  obtain ⟨h1, h2⟩ := inRange_iff.1 hir
  exact posLt_of_posLe_of_posLt h1 h2

/-! ## C2: checkpoint advance policy -/

/-- **C2.**  For every poll window of a LogReader, the stream's checkpoint is
persisted (set to the window's end position) only after the Consumer has
successfully processed every entry of that window; if the window is only
partially processed (some entry of the window fails), the checkpoint is left
unchanged, and the checkpoint changes only when every entry of the window was
processed, in which case the whole window was delivered and the checkpoint
equals the window's end position. -/
theorem checkpoint_advance_policy (ok : RawRow → Bool) (shard : List RawRow)
    (st : ReaderState) (upper : Pos) :
    ((∃ r ∈ window shard st.cp upper, ok r = false) →
        (pollStepFallible ok shard st upper).1.cp = st.cp) ∧
      ((pollStepFallible ok shard st upper).1.cp ≠ st.cp →
        (∀ r ∈ window shard st.cp upper, ok r = true) ∧
          (pollStepFallible ok shard st upper).1.delivered
            = st.delivered ++ window shard st.cp upper ∧
          (pollStepFallible ok shard st upper).1.cp = upper) := by
  constructor
  · rintro ⟨r, hr, hfalse⟩
    have hall : (window shard st.cp upper).all ok = false := by
      rw [List.all_eq_false]
      exact ⟨r, hr, by simp [hfalse]⟩
    simp [pollStepFallible, hall]
  · intro hne
    by_cases hall : (window shard st.cp upper).all ok = true
    · refine ⟨List.all_eq_true.1 hall, ?_, ?_⟩
      · simp [pollStepFallible, hall]
      · by_cases hemp : (window shard st.cp upper).isEmpty = true
        · exact absurd (by simp [pollStepFallible, hall, hemp]) hne
        · simp [pollStepFallible, hall, hemp]
    · exact absurd (by simp [pollStepFallible, Bool.eq_false_iff.2 hall]) hne

/-- Witness for C2: a Consumer that fails on the single entry of the window
leaves the checkpoint unchanged. -/
theorem checkpoint_advance_policy_witness :
    (pollStepFallible (fun _ => false) [rowA]
      { cp := (0, 0), delivered := [] } (5, 0)).1.cp = (0, 0) :=
  (checkpoint_advance_policy (fun _ => false) [rowA]
    { cp := (0, 0), delivered := [] } (5, 0)).1 ⟨rowA, by decide, rfl⟩

/-! ## C1: the delivered sequence is non-decreasing in (timestamp, batchSeq) -/

theorem stepRow_out {st st₁ : DecState} {r : RawRow} (h : stepRow st r = .ok st₁) :
    st₁.out = st.out ∨ ∃ e : LogEntry, e.pos = r.pos ∧ st₁.out = st.out ++ [e] := by
  unfold stepRow at h
  cases hnf : nonFrozenCol r with
  | some c => rw [hnf] at h; exact absurd h (by simp)
  | none =>
    rw [hnf] at h
    by_cases hs : isStart r = true
    · rw [if_pos hs] at h
      cases hf : st.pend.find? (fun p => isEnd p && p.batchId == r.batchId) with
      | some e =>
        rw [hf] at h
        simp only [Except.ok.injEq] at h
        subst h
        exact .inr ⟨pairEntry r e r, rfl, rfl⟩
      | none =>
        rw [hf] at h
        simp only [Except.ok.injEq] at h
        subst h
        exact .inl rfl
    · rw [if_neg hs] at h
      by_cases he : isEnd r = true
      · rw [if_pos he] at h
        cases hf : st.pend.find? (fun p => isStart p && p.batchId == r.batchId) with
        | some s =>
          rw [hf] at h
          simp only [Except.ok.injEq] at h
          subst h
          exact .inr ⟨pairEntry s r r, rfl, rfl⟩
        | none =>
          rw [hf] at h
          simp only [Except.ok.injEq] at h
          subst h
          exact .inl rfl
      · rw [if_neg he] at h
        simp only [Except.ok.injEq] at h
        subst h
        exact .inr ⟨decodeRow r, rfl, rfl⟩

theorem decodeRows_out (rows : List RawRow) :
    ∀ st st' : DecState, decodeRows st rows = .ok st' →
      List.Pairwise (fun a b : RawRow => posLe a.pos b.pos) rows →
      List.Pairwise (fun a b : LogEntry => posLe a.pos b.pos) st.out →
      (∀ r ∈ rows, ∀ e ∈ st.out, posLe e.pos r.pos) →
      List.Pairwise (fun a b : LogEntry => posLe a.pos b.pos) st'.out ∧
        ∀ e ∈ st'.out, e ∈ st.out ∨ ∃ r ∈ rows, e.pos = r.pos := by
  induction rows with
  | nil =>
    intro st st' h _ hp _
    simp only [decodeRows, Except.ok.injEq] at h
    subst h
    exact ⟨hp, fun e he => .inl he⟩
  | cons r rs ih =>
    intro st st' h hrows hp hcross
    unfold decodeRows at h
    cases hst : stepRow st r with
    | error e => rw [hst] at h; exact absurd h (by simp)
    | ok st₁ =>
      rw [hst] at h
      have hout := stepRow_out hst
      have hrows' := List.pairwise_cons.1 hrows
      have hp₁ : List.Pairwise (fun a b : LogEntry => posLe a.pos b.pos) st₁.out := by
        rcases hout with heq | ⟨e, hepos, heq⟩
        · rw [heq]; exact hp
        · rw [heq]
          apply List.pairwise_append.2
          refine ⟨hp, List.pairwise_singleton _ _, ?_⟩
          intro a ha b hb
          rw [List.mem_singleton] at hb
          subst hb
          rw [hepos]
          exact hcross r (List.mem_cons_self _ _) a ha
      have hcross₁ : ∀ r' ∈ rs, ∀ e' ∈ st₁.out, posLe e'.pos r'.pos := by
        intro r' hr' e' he'
        rcases hout with heq | ⟨e, hepos, heq⟩
        · rw [heq] at he'
          exact hcross r' (List.mem_cons_of_mem _ hr') e' he'
        · rw [heq] at he'
          rcases List.mem_append.1 he' with h1 | h2
          · exact hcross r' (List.mem_cons_of_mem _ hr') e' h1
          · rw [List.mem_singleton] at h2
            subst h2
            rw [hepos]
            exact hrows'.1 r' hr'
      obtain ⟨hpf, hmem⟩ := ih st₁ st' h hrows'.2 hp₁ hcross₁
      refine ⟨hpf, ?_⟩
      intro e he
      rcases hmem e he with h1 | ⟨r', hr', hpos⟩
      · rcases hout with heq | ⟨e0, hepos, heq⟩
        · rw [heq] at h1; exact .inl h1
        · rw [heq] at h1
          rcases List.mem_append.1 h1 with h2 | h3
          · exact .inl h2
          · rw [List.mem_singleton] at h3
            subst h3
            exact .inr ⟨r, List.mem_cons_self _ _, hepos⟩
      · exact .inr ⟨r', List.mem_cons_of_mem _ hr', hpos⟩

theorem pipeStep_inv {shard : List RawRow} {st st' : PipeState} {u : Pos}
    (h : pipeStep shard st u = .ok st')
    (hp : List.Pairwise (fun a b : LogEntry => posLe a.pos b.pos) st.out)
    (hb : ∀ e ∈ st.out, posLt e.pos st.cp) :
    List.Pairwise (fun a b : LogEntry => posLe a.pos b.pos) st'.out ∧
      ∀ e ∈ st'.out, posLt e.pos st'.cp := by
  unfold pipeStep at h
  simp only [] at h
  cases hd : decodeRows { pend := st.pend, out := [] } (window shard st.cp u) with
  | error e => rw [hd] at h; exact absurd h (by simp)
  | ok d =>
    rw [hd] at h
    simp only [Except.ok.injEq] at h
    subst h
    have hrows : List.Pairwise (fun a b : RawRow => posLe a.pos b.pos)
        (window shard st.cp u) :=
      (window_sorted shard st.cp u).imp posLe_of_rowLe
    obtain ⟨hdp, hdm⟩ :=
      decodeRows_out (window shard st.cp u) _ d hd hrows (by simp) (by simp)
    have hd_in : ∀ e ∈ d.out, posLe st.cp e.pos ∧ posLt e.pos u := by
      intro e he
      rcases hdm e he with h1 | ⟨r, hr, hpos⟩
      · simp at h1
      · obtain ⟨-, hir⟩ := mem_window.1 hr
        obtain ⟨h1, h2⟩ := inRange_iff.1 hir
        rw [hpos]
        exact ⟨h1, h2⟩
    constructor
    · apply List.pairwise_append.2
      refine ⟨hp, hdp, ?_⟩
      intro a ha b hb'
      exact posLe_trans (posLe_of_posLt (hb a ha)) (hd_in b hb').1
    · intro e he
      by_cases hemp : (window shard st.cp u).isEmpty = true
      · have hwq : window shard st.cp u = [] := by
          cases hw : window shard st.cp u
          · rfl
          · rw [hw] at hemp; simp at hemp
        rw [hwq] at hd
        simp only [decodeRows, Except.ok.injEq] at hd
        have hdout : d.out = [] := by rw [← hd]
        rw [hdout] at he
        simp only [List.append_nil] at he
        simp only [hemp, if_pos]
        exact hb e he
      · have hwne : window shard st.cp u ≠ [] := by
          intro hq
          rw [hq] at hemp
          simp at hemp
        have hcpu : posLt st.cp u := window_cp_le hwne
        simp only [hemp, if_neg, Bool.false_eq_true, not_false_eq_true]
        rcases List.mem_append.1 he with h1 | h2
        · exact posLt_of_posLt_of_posLe (hb e h1) (posLe_of_posLt hcpu)
        · exact (hd_in e h2).2

theorem pipeRun_inv (shard : List RawRow) :
    ∀ (uppers : List Pos) (st st' : PipeState),
      pipeRun shard st uppers = .ok st' →
      List.Pairwise (fun a b : LogEntry => posLe a.pos b.pos) st.out →
      (∀ e ∈ st.out, posLt e.pos st.cp) →
      List.Pairwise (fun a b : LogEntry => posLe a.pos b.pos) st'.out ∧
        ∀ e ∈ st'.out, posLt e.pos st'.cp := by
  intro uppers
  induction uppers with
  | nil =>
    intro st st' h hp hb
    simp only [pipeRun, Except.ok.injEq] at h
    subst h
    exact ⟨hp, hb⟩
  | cons u us ih =>
    intro st st' h hp hb
    unfold pipeRun at h
    cases hs : pipeStep shard st u with
    | error e => rw [hs] at h; exact absurd h (by simp)
    | ok st₁ =>
      rw [hs] at h
      obtain ⟨hp₁, hb₁⟩ := pipeStep_inv hs hp hb
      exact ih st₁ st' h hp₁ hb₁

/-- **C1.**  For every stream (shard contents, initial checkpoint, and poll
windows) the sequence of LogEntry values delivered to that stream's Consumer
has non-decreasing (write timestamp, batch sequence number) between
successive entries. -/
theorem delivered_nondecreasing (shard : List RawRow) (c0 : Pos) (uppers : List Pos)
    (st' : PipeState)
    (h : pipeRun shard { cp := c0, pend := [], out := [] } uppers = .ok st') :
    List.Chain' (fun a b : LogEntry => posLe a.pos b.pos) st'.out :=
  ((pipeRun_inv shard uppers _ st' h (by simp) (by simp)).1).chain'

/-- Witness for C1: the end-to-end scenario's delivered sequence is
non-decreasing in (timestamp, batch sequence number). -/
theorem delivered_nondecreasing_witness :
    List.Chain' (fun a b : LogEntry => posLe a.pos b.pos) scenarioExpected :=
  delivered_nondecreasing scenarioShard (0, 0) [(10, 0)]
    { cp := (10, 0), pend := [], out := scenarioExpected } (by decide)

/-! ## C3: idempotent replay from the persisted checkpoint -/

theorem filter_union_perm {α : Type} (p q : α → Bool) (l : List α)
    (hdisj : ∀ a, q a = true → p a = false) :
    (l.filter p ++ l.filter q).Perm (l.filter (fun a => p a || q a)) := by
  induction l with
  | nil => simp
  | cons a l ih =>
    cases hpa : p a with
    | true =>
      have hqa : q a = false := by
        cases hqa : q a
        · rfl
        · rw [hdisj a hqa] at hpa; cases hpa
      simp only [List.filter_cons, hpa, hqa, Bool.or_false, if_pos, List.cons_append]
      exact ih.cons a
    | false =>
      cases hqa : q a
      · simp only [List.filter_cons, hpa, hqa, Bool.or_false, Bool.false_eq_true, if_neg,
          not_false_eq_true]
        exact ih
      · simp only [List.filter_cons, hpa, hqa, Bool.false_or, Bool.false_eq_true, if_neg,
          not_false_eq_true, if_pos]
        exact List.perm_middle.trans (ih.cons a)

theorem inRange_disjoint {lo mid hi : Pos} (a : RawRow)
    (h : inRange mid hi a = true) : inRange lo mid a = false := by
  obtain ⟨h1, -⟩ := inRange_iff.1 h
  cases hr : inRange lo mid a
  · rfl
  · obtain ⟨-, h2⟩ := inRange_iff.1 hr
    simp only [posLe, posLt] at h1 h2
    omega

theorem inRange_union {lo mid hi : Pos} (h1 : posLe lo mid) (h2 : posLe mid hi)
    (a : RawRow) : (inRange lo mid a || inRange mid hi a) = inRange lo hi a := by
  rw [Bool.eq_iff_iff]
  simp only [Bool.or_eq_true, inRange_iff]
  unfold posLe posLt at *
  omega

theorem inRange_self_nil (shard : List RawRow) (c : Pos) :
    shard.filter (inRange c c) = [] := by
  rw [List.filter_eq_nil_iff]
  intro a _
  simp only [inRange_iff, not_and]
  intro h1 h2
  simp only [posLe, posLt] at h1 h2
  omega

theorem pollStep_replay {shard : List RawRow} {c0 : Pos} {st : ReaderState} (u : Pos)
    (h1 : posLe c0 st.cp)
    (h2 : st.delivered.Perm (shard.filter (inRange c0 st.cp))) :
    posLe c0 (pollStep shard st u).cp ∧
      (pollStep shard st u).delivered.Perm
        (shard.filter (inRange c0 (pollStep shard st u).cp)) := by
  unfold pollStep
  simp only []
  by_cases hemp : (window shard st.cp u).isEmpty = true
  · simp only [hemp, if_pos]
    exact ⟨h1, h2⟩
  · have hwne : window shard st.cp u ≠ [] := by
      intro hq; rw [hq] at hemp; simp at hemp
    have hcpu : posLt st.cp u := window_cp_le hwne
    simp only [hemp, Bool.false_eq_true, if_neg, not_false_eq_true]
    refine ⟨posLe_trans h1 (posLe_of_posLt hcpu), ?_⟩
    have hsplit : (shard.filter (inRange c0 st.cp) ++
        shard.filter (inRange st.cp u)).Perm
        (shard.filter (fun a => inRange c0 st.cp a || inRange st.cp u a)) :=
      filter_union_perm _ _ shard (fun a => inRange_disjoint a)
    have hcongr : shard.filter (fun a => inRange c0 st.cp a || inRange st.cp u a)
        = shard.filter (inRange c0 u) :=
      List.filter_congr (fun a _ => inRange_union h1 (posLe_of_posLt hcpu) a)
    exact (h2.append (window_perm shard st.cp u)).trans (hcongr ▸ hsplit)

theorem run_replay (shard : List RawRow) (c0 : Pos) :
    ∀ (uppers : List Pos) (st : ReaderState),
      posLe c0 st.cp →
      st.delivered.Perm (shard.filter (inRange c0 st.cp)) →
      posLe c0 (run shard st uppers).cp ∧
        (run shard st uppers).delivered.Perm
          (shard.filter (inRange c0 (run shard st uppers).cp)) := by
  intro uppers
  induction uppers with
  | nil => intro st h1 h2; exact ⟨h1, h2⟩
  | cons u us ih =>
    intro st h1 h2
    rw [show run shard st (u :: us) = run shard (pollStep shard st u) us from rfl]
    obtain ⟨h1', h2'⟩ := pollStep_replay u h1 h2
    exact ih (pollStep shard st u) h1' h2'

/-- **C3.**  A stream task killed after delivering some entries of a window
(the Consumer fails mid-window, so no new checkpoint is persisted) and
restarted from its persisted checkpoint re-delivers only entries whose
position is at or after the checkpoint — no entry at a position already
covered by the checkpoint is delivered again — and the restarted delivery is
exactly (a permutation of) the shard entries from the checkpoint up to the
restarted reader's final checkpoint: none of them is skipped. -/
theorem idempotent_replay (ok : RawRow → Bool) (shard : List RawRow) (c0 : Pos)
    (uppers1 : List Pos) (u : Pos) (uppers2 : List Pos)
    (hkill : ∃ r ∈ window shard
      (run shard { cp := c0, delivered := [] } uppers1).cp u, ok r = false) :
    let stCrash := (pollStepFallible ok shard
      (run shard { cp := c0, delivered := [] } uppers1) u).1
    let st' := run shard { cp := stCrash.cp, delivered := [] } uppers2
    stCrash.cp = (run shard { cp := c0, delivered := [] } uppers1).cp ∧
      (∀ r ∈ st'.delivered, posLe stCrash.cp r.pos) ∧
        st'.delivered.Perm (shard.filter (inRange stCrash.cp st'.cp)) := by
  intro stCrash st'
  have hcp : stCrash.cp = (run shard { cp := c0, delivered := [] } uppers1).cp :=
    (checkpoint_advance_policy ok shard
      (run shard { cp := c0, delivered := [] } uppers1) u).1 hkill
  have hinit : (([] : List RawRow)).Perm
      (shard.filter (inRange stCrash.cp stCrash.cp)) := by
    rw [inRange_self_nil]
  obtain ⟨h1, h2⟩ := run_replay shard stCrash.cp uppers2
    { cp := stCrash.cp, delivered := [] } (posLe_refl _) hinit
  refine ⟨hcp, ?_, h2⟩
  intro r hr
  have := h2.mem_iff.1 hr
  exact (inRange_iff.1 (List.mem_filter.1 this).2).1

/-- Witness for C3: a reader killed on the first window (Consumer fails)
leaves the checkpoint at `(0,0)`; the restart re-delivers exactly the shard
entry at or after `(0,0)`. -/
theorem idempotent_replay_witness :
    let stCrash := (pollStepFallible (fun _ => false) [rowA]
      (run [rowA] { cp := (0, 0), delivered := [] } []) (5, 0)).1
    let st' := run [rowA] { cp := stCrash.cp, delivered := [] } [(5, 0)]
    stCrash.cp = (run [rowA] { cp := (0, 0), delivered := [] } []).cp ∧
      (∀ r ∈ st'.delivered, posLe stCrash.cp r.pos) ∧
        st'.delivered.Perm ([rowA].filter (inRange stCrash.cp st'.cp)) :=
  idempotent_replay (fun _ => false) [rowA] (0, 0) [] (5, 0) [(5, 0)]
    ⟨rowA, by decide, rfl⟩

/-! ## C4: fetchGenerations retry with backoff, fatal after exhausting retries -/

theorem fetchGenAux_all_fail {α : Type} (attempts : Nat → Option α) :
    ∀ (n i delay : Nat), (∀ j, j ≤ n → attempts (i + j) = none) →
      fetchGenAux attempts i delay n
        = (.error "generation discovery failed: retries exhausted",
           (List.range n).map (fun k => 2 ^ k * delay)) := by
  intro n
  induction n with
  | zero =>
    intro i delay h
    have h0 : attempts i = none := by have := h 0 (by omega); simpa using this
    simp [fetchGenAux, h0]
  | succ n ih =>
    intro i delay h
    have h0 : attempts i = none := by have := h 0 (by omega); simpa using this
    have hrec := ih (i + 1) (2 * delay)
      (fun j hj => by have := h (j + 1) (by omega); simpa [Nat.add_assoc, Nat.add_comm 1 j] using this)
    unfold fetchGenAux
    rw [h0, hrec]
    simp only [Prod.mk.injEq, true_and]
    rw [List.range_succ_eq_map, List.map_cons, List.map_map]
    have hfun : ((fun k => 2 ^ k * delay) ∘ Nat.succ) = fun k => 2 ^ k * (2 * delay) := by
      funext k
      simp only [Function.comp_apply, pow_succ]
      ring
    rw [hfun]
    simp

theorem fetchGenAux_succeeds {α : Type} (attempts : Nat → Option α) :
    ∀ (n i delay k : Nat) (g : α), k ≤ n → (∀ j, j < k → attempts (i + j) = none) →
      attempts (i + k) = some g → (fetchGenAux attempts i delay n).1 = .ok g := by
  intro n
  induction n with
  | zero =>
    intro i delay k g hk hfail hsucc
    have hk0 : k = 0 := by omega
    subst hk0
    simp only [Nat.add_zero] at hsucc
    simp [fetchGenAux, hsucc]
  | succ n ih =>
    intro i delay k g hk hfail hsucc
    cases k with
    | zero =>
      simp only [Nat.add_zero] at hsucc
      simp [fetchGenAux, hsucc]
    | succ k =>
      have h0 : attempts i = none := by have := hfail 0 (by omega); simpa using this
      unfold fetchGenAux
      rw [h0]
      exact ih (i + 1) (2 * delay) k g (by omega)
        (fun j hj => by have := hfail (j + 1) (by omega); simpa [Nat.add_assoc, Nat.add_comm 1 j] using this)
        (by simpa [Nat.add_assoc, Nat.add_comm 1 k] using hsucc)

/-- **C4.**  `fetchGenerations`, on transient failure of its network query,
is retried with (exponentially doubling) backoff — after `k` consecutive
transient failures followed by a success within the retry budget it returns
the fetched generations — and becomes fatal after exhausting its retries:
if the first `maxRetries + 1` attempts all fail transiently, it returns a
fatal error, having slept the backoff sequence `baseDelay * 2^k`. -/
theorem fetchGenerations_retry_policy {α : Type} (attempts : Nat → Option α)
    (maxRetries baseDelay : Nat) :
    ((∀ j, j ≤ maxRetries → attempts j = none) →
        fetchGenerations attempts maxRetries baseDelay
          = (.error "generation discovery failed: retries exhausted",
             (List.range maxRetries).map (fun k => 2 ^ k * baseDelay))) ∧
      (∀ (k : Nat) (g : α), k ≤ maxRetries → (∀ j, j < k → attempts j = none) →
        attempts k = some g →
        (fetchGenerations attempts maxRetries baseDelay).1 = .ok g) := by
  constructor
  · intro h
    exact fetchGenAux_all_fail attempts maxRetries 0 baseDelay
      (fun j hj => by simpa using h j hj)
  · intro k g hk hfail hsucc
    exact fetchGenAux_succeeds attempts maxRetries 0 baseDelay k g hk
      (fun j hj => by simpa using hfail j hj) (by simpa using hsucc)

/-- Witness for C4: three transient failures with retry budget 2 end fatal
after backoff delays [1, 2]; failure then success on attempt 1 returns the
fetched value. -/
theorem fetchGenerations_retry_policy_witness :
    fetchGenerations (fun _ => (none : Option Nat)) 2 1
        = (.error "generation discovery failed: retries exhausted", [1, 2]) ∧
      (fetchGenerations (fun i => if i = 1 then some 42 else (none : Option Nat)) 2 1).1
        = .ok 42 := by
  constructor
  · have := (fetchGenerations_retry_policy (fun _ => (none : Option Nat)) 2 1).1
      (fun j _ => rfl)
    rw [this]
    rfl
  · exact (fetchGenerations_retry_policy
      (fun i => if i = 1 then some 42 else (none : Option Nat)) 2 1).2 1 42 (by omega)
      (fun j hj => by
        have hj0 : j = 0 := by omega
        subst hj0
        rfl)
      rfl

/-! ## C5: non-frozen collection mutations are an explicit unsupported failure -/

theorem nonFrozenCol_isSome {r : RawRow}
    (hnf : ∃ c ∈ r.cells, c.2.deletedElems ≠ []) : ∃ c, nonFrozenCol r = some c := by
  obtain ⟨c, hc, hne⟩ := hnf
  unfold nonFrozenCol
  have : ∃ x, r.cells.find? (fun c => !c.2.deletedElems.isEmpty) = some x := by
    rw [← Option.isSome_iff_exists, List.find?_isSome]
    refine ⟨c, hc, ?_⟩
    simp [List.isEmpty_iff, hne]
  obtain ⟨x, hx⟩ := this
  exact ⟨x.1, by rw [hx]; rfl⟩

theorem decodeRows_error_of_nonfrozen (r : RawRow) (col : String)
    (hr : nonFrozenCol r = some col) :
    ∀ (rows : List RawRow) (st : DecState), r ∈ rows →
      ∃ c, decodeRows st rows = .error (.unsupportedNonFrozen c) := by
  intro rows
  induction rows with
  | nil => intro st h; exact absurd h (by simp)
  | cons x rs ih =>
    intro st hmem
    unfold decodeRows
    cases hst : stepRow st x with
    | error e =>
      cases e with
      | unsupportedNonFrozen c => exact ⟨c, rfl⟩
    | ok st₁ =>
      rcases List.mem_cons.1 hmem with heq | hrs
      · subst heq
        unfold stepRow at hst
        rw [hr] at hst
        exact absurd hst (by simp)
      · exact ih st₁ hrs

/-- **C5.**  Every raw log row encoding a per-element mutation of a
non-frozen collection (a non-empty deleted-elements column) makes the
decoder return an explicit "unsupported" decode failure naming a column:
no window containing such a row decodes successfully, so the mutation is
never silently dropped or decoded as a different mutation. -/
theorem nonfrozen_unsupported (pending rows : List RawRow) (r : RawRow)
    (hr : r ∈ rows) (hnf : ∃ c ∈ r.cells, c.2.deletedElems ≠ []) :
    ∃ col, decodeWindow pending rows = .error (.unsupportedNonFrozen col) := by
  obtain ⟨c, hc⟩ := nonFrozenCol_isSome hnf
  obtain ⟨col, hcol⟩ :=
    decodeRows_error_of_nonfrozen r c hc rows { pend := pending, out := [] } hr
  exact ⟨col, by unfold decodeWindow; rw [hcol]; rfl⟩

/-- Witness for C5: a row with a non-empty deleted-elements column on column
"s" makes the decoder fail with the explicit unsupported error. -/
theorem nonfrozen_unsupported_witness :
    ∃ col, decodeWindow [] [rowNonFrozen] = .error (.unsupportedNonFrozen col) :=
  nonfrozen_unsupported [] [rowNonFrozen] rowNonFrozen (by decide)
    ⟨("s", { value := none, isDeleted := false, deletedElems := [.int 2] }), by decide,
      by decide⟩

/-! ## C6: deletion-marker classification -/

theorem lookup_decodeCells (cells : List (String × RawCell)) (name : String) :
    (decodeCells cells).lookup name = (cells.lookup name).map decodeCell := by
  induction cells with
  | nil => rfl
  | cons c cs ih =>
    obtain ⟨k, v⟩ := c
    cases h : name == k
    · simpa [decodeCells, List.lookup_cons, h] using ih
    · simp [decodeCells, List.lookup_cons, h]

/-- **C6.**  For every base-table column of a decoded LogEntry, the column is
classified as explicitly-deleted exactly when its companion deletion-marker
column is present, independently of whether the value column is null: the
decoded entry's `isDeleted` equals the raw cell's deletion marker, whatever
the cell's value. -/
theorem deletion_marker_classification (r : RawRow) (name : String) (cell : RawCell)
    (hl : r.cells.lookup name = some cell) :
    (decodeRow r).isDeleted name = cell.isDeleted := by
  unfold LogEntry.isDeleted decodeRow
  simp only []
  rw [lookup_decodeCells, hl]
  cases hd : cell.isDeleted
  · cases hv : cell.value <;> simp [decodeCell, hd, hv]
  · simp [decodeCell, hd]

/-- Witness for C6: deleting column `v` at `(pk=1, ck=1)` (value column null,
deletion marker set) yields a LogEntry with `isDeleted "v" = true`. -/
theorem deletion_marker_classification_witness :
    (decodeRow rawDeleteV).isDeleted "v" = true :=
  deletion_marker_classification rawDeleteV "v"
    { value := none, isDeleted := true, deletedElems := [] } (by decide)

/-! ## C7: the end-to-end scenario -/

/-- **C7.**  On the table `(pk int, ck int, v int)` with CDC enabled, the
operations insert `(1,1,10)`, update `v=20` at `(1,1)`, delete `v` at
`(1,1)` (shard rows arriving out of physical order) make the pipeline
deliver to the Consumer exactly the sequence
Insert{ck=1, v=present(10)}, UpdateRow{ck=1, v=present(20)},
UpdateRow{ck=1, v=deleted}, with non-decreasing timestamps. -/
theorem end_to_end_scenario :
    pipeRun scenarioShard { cp := (0, 0), pend := [], out := [] } [(10, 0)]
        = .ok { cp := (10, 0), pend := [], out := scenarioExpected } ∧
      scenarioExpected.map LogEntry.operation
          = [.insert, .updateRow, .updateRow] ∧
      (∀ e ∈ scenarioExpected, e.getValue "ck" = some (.int 1)) ∧
      scenarioExpected.map (fun e => e.getValue "v")
          = [some (.int 10), some (.int 20), none] ∧
      scenarioExpected.map (fun e => e.isDeleted "v") = [false, false, true] ∧
      List.Chain' (fun a b : LogEntry => a.ts ≤ b.ts) scenarioExpected :=
  ⟨by decide, by decide, by decide, by decide, by decide,
   by simp [scenarioExpected, List.chain'_cons]⟩

/-! ## C8: range-delete fragment pairing and hold-back -/

theorem removeFirst_subset (p : RawRow → Bool) :
    ∀ (l : List RawRow) (x : RawRow), x ∈ removeFirst p l → x ∈ l := by
  intro l
  induction l with
  | nil => intro x h; exact absurd h (by simp [removeFirst])
  | cons a l ih =>
    intro x h
    unfold removeFirst at h
    by_cases hp : p a = true
    · rw [if_pos hp] at h
      exact List.mem_cons_of_mem _ h
    · rw [if_neg hp] at h
      rcases List.mem_cons.1 h with heq | hmem
      · exact heq ▸ List.mem_cons_self _ _
      · exact List.mem_cons_of_mem _ (ih x hmem)

theorem mem_removeFirst (p : RawRow → Bool) :
    ∀ (l : List RawRow) (x : RawRow), x ∈ l → p x = false → x ∈ removeFirst p l := by
  intro l
  induction l with
  | nil => intro x h _; exact absurd h (by simp)
  | cons a l ih =>
    intro x h hx
    unfold removeFirst
    by_cases hp : p a = true
    · rw [if_pos hp]
      rcases List.mem_cons.1 h with heq | hmem
      · subst heq
        rw [hx] at hp
        exact absurd hp (by simp)
      · exact hmem
    · rw [if_neg hp]
      rcases List.mem_cons.1 h with heq | hmem
      · exact heq ▸ List.mem_cons_self _ _
      · exact List.mem_cons_of_mem _ (ih x hmem hx)

theorem decodeOp_ne_range (o : RawOp) (lo : List CqlValue) (loI : Bool)
    (hi : List CqlValue) (hiI : Bool) : decodeOp o ≠ .rangeDelete lo loI hi hiI := by
  cases o <;> simp [decodeOp]

theorem stepRow_shape {st st₁ : DecState} {r : RawRow} (h : stepRow st r = .ok st₁) :
    (∀ p ∈ st₁.pend, p ∈ st.pend ∨ p = r) ∧
      ∀ e ∈ st₁.out, e ∈ st.out ∨
        (∃ s en : RawRow, (s ∈ st.pend ∨ s = r) ∧ (en ∈ st.pend ∨ en = r) ∧
          isStart s = true ∧ isEnd en = true ∧ s.batchId = en.batchId ∧
          e.op = .rangeDelete s.bound (inclOf s) en.bound (inclOf en)) ∨
        (e.op = decodeOp r.op ∧ isStart r = false ∧ isEnd r = false) := by
  unfold stepRow at h
  cases hnf : nonFrozenCol r with
  | some c => rw [hnf] at h; exact absurd h (by simp)
  | none =>
    rw [hnf] at h
    by_cases hs : isStart r = true
    · rw [if_pos hs] at h
      cases hf : st.pend.find? (fun p => isEnd p && p.batchId == r.batchId) with
      | some e2 =>
        rw [hf] at h
        simp only [Except.ok.injEq] at h
        subst h
        have hfs := List.find?_some hf
        simp only [Bool.and_eq_true, beq_iff_eq] at hfs
        constructor
        · intro p hp
          exact .inl (removeFirst_subset _ _ _ hp)
        · intro e he
          rcases List.mem_append.1 he with h1 | h2
          · exact .inl h1
          · rw [List.mem_singleton] at h2
            subst h2
            exact .inr (.inl ⟨r, e2, .inr rfl, .inl (List.mem_of_find?_eq_some hf),
              hs, hfs.1, hfs.2.symm, rfl⟩)
      | none =>
        rw [hf] at h
        simp only [Except.ok.injEq] at h
        subst h
        constructor
        · intro p hp
          rcases List.mem_append.1 hp with h1 | h2
          · exact .inl h1
          · exact .inr (List.mem_singleton.1 h2)
        · intro e he
          exact .inl he
    · rw [if_neg hs] at h
      by_cases he : isEnd r = true
      · rw [if_pos he] at h
        cases hf : st.pend.find? (fun p => isStart p && p.batchId == r.batchId) with
        | some s2 =>
          rw [hf] at h
          simp only [Except.ok.injEq] at h
          subst h
          have hfs := List.find?_some hf
          simp only [Bool.and_eq_true, beq_iff_eq] at hfs
          constructor
          · intro p hp
            exact .inl (removeFirst_subset _ _ _ hp)
          · intro e he'
            rcases List.mem_append.1 he' with h1 | h2
            · exact .inl h1
            · rw [List.mem_singleton] at h2
              subst h2
              exact .inr (.inl ⟨s2, r, .inl (List.mem_of_find?_eq_some hf), .inr rfl,
                hfs.1, he, hfs.2, rfl⟩)
        | none =>
          rw [hf] at h
          simp only [Except.ok.injEq] at h
          subst h
          constructor
          · intro p hp
            rcases List.mem_append.1 hp with h1 | h2
            · exact .inl h1
            · exact .inr (List.mem_singleton.1 h2)
          · intro e he'
            exact .inl he'
      · rw [if_neg he] at h
        simp only [Except.ok.injEq] at h
        subst h
        constructor
        · intro p hp
          exact .inl hp
        · intro e he'
          rcases List.mem_append.1 he' with h1 | h2
          · exact .inl h1
          · rw [List.mem_singleton] at h2
            subst h2
            exact .inr (.inr ⟨rfl, Bool.eq_false_iff.2 hs, Bool.eq_false_iff.2 he⟩)

theorem decodeRows_range_origin (S : RawRow → Prop) :
    ∀ (rows : List RawRow) (st st' : DecState),
      decodeRows st rows = .ok st' →
      (∀ p ∈ st.pend, S p) → (∀ x ∈ rows, S x) →
      (∀ e ∈ st.out, RangeOrigin S e) →
      (∀ p ∈ st'.pend, S p) ∧ ∀ e ∈ st'.out, RangeOrigin S e := by
  intro rows
  induction rows with
  | nil =>
    intro st st' h hpend _ hout
    simp only [decodeRows, Except.ok.injEq] at h
    subst h
    exact ⟨hpend, hout⟩
  | cons x rs ih =>
    intro st st' h hpend hrows hout
    unfold decodeRows at h
    cases hst : stepRow st x with
    | error e => rw [hst] at h; exact absurd h (by simp)
    | ok st₁ =>
      rw [hst] at h
      obtain ⟨hp1, ho1⟩ := stepRow_shape hst
      have hSx : S x := hrows x (List.mem_cons_self _ _)
      have hpend₁ : ∀ p ∈ st₁.pend, S p := by
        intro p hp
        rcases hp1 p hp with hmem | heq
        · exact hpend p hmem
        · exact heq ▸ hSx
      have hout₁ : ∀ e ∈ st₁.out, RangeOrigin S e := by
        intro e he
        rcases ho1 e he with hmem | hpair | hdec
        · exact hout e hmem
        · obtain ⟨s, en, hsmem, henmem, hss, hee, hbb, hop⟩ := hpair
          intro _
          refine ⟨s, en, ?_, ?_, hss, hee, hbb, hop⟩
          · rcases hsmem with hm | hm
            · exact hpend s hm
            · exact hm ▸ hSx
          · rcases henmem with hm | hm
            · exact hpend en hm
            · exact hm ▸ hSx
        · intro hex
          obtain ⟨lo, loI, hi, hiI, hop⟩ := hex
          rw [hdec.1] at hop
          exact absurd hop (decodeOp_ne_range _ _ _ _ _)
      exact ih st₁ st' h hpend₁ (fun y hy => hrows y (List.mem_cons_of_mem _ hy)) hout₁

theorem stepRow_keep {st st₁ : DecState} {r x : RawRow} (h : stepRow st x = .ok st₁)
    (hpend : ∀ p ∈ st.pend, fragMatches r p = false)
    (hx : fragMatches r x = false) :
    (r ∈ st.pend → r ∈ st₁.pend) ∧ (x = r → isFrag r = true → r ∈ st₁.pend) := by
  unfold stepRow at h
  cases hnf : nonFrozenCol x with
  | some c => rw [hnf] at h; exact absurd h (by simp)
  | none =>
    rw [hnf] at h
    by_cases hs : isStart x = true
    · rw [if_pos hs] at h
      cases hf : st.pend.find? (fun p => isEnd p && p.batchId == x.batchId) with
      | some e2 =>
        rw [hf] at h
        simp only [Except.ok.injEq] at h
        subst h
        constructor
        · intro hr
          apply mem_removeFirst _ _ _ hr
          cases hpr : (isEnd r && r.batchId == x.batchId)
          · rfl
          · exfalso
            simp only [Bool.and_eq_true, beq_iff_eq] at hpr
            have : fragMatches r x = true := by
              unfold fragMatches
              simp [hpr.1, hpr.2, hs]
            rw [hx] at this
            exact absurd this (by simp)
        · intro hxr hfrag
          exfalso
          subst hxr
          have hmem := List.mem_of_find?_eq_some hf
          have hfs := List.find?_some hf
          simp only [Bool.and_eq_true, beq_iff_eq] at hfs
          have : fragMatches x e2 = true := by
            unfold fragMatches
            simp [hfs.1, hfs.2, hs]
          rw [hpend e2 hmem] at this
          exact absurd this (by simp)
      | none =>
        rw [hf] at h
        simp only [Except.ok.injEq] at h
        subst h
        constructor
        · intro hr
          exact List.mem_append_left _ hr
        · intro hxr _
          subst hxr
          exact List.mem_append_right _ (List.mem_singleton.2 rfl)
    · rw [if_neg hs] at h
      by_cases he : isEnd x = true
      · rw [if_pos he] at h
        cases hf : st.pend.find? (fun p => isStart p && p.batchId == x.batchId) with
        | some s2 =>
          rw [hf] at h
          simp only [Except.ok.injEq] at h
          subst h
          constructor
          · intro hr
            apply mem_removeFirst _ _ _ hr
            cases hpr : (isStart r && r.batchId == x.batchId)
            · rfl
            · exfalso
              simp only [Bool.and_eq_true, beq_iff_eq] at hpr
              have : fragMatches r x = true := by
                unfold fragMatches
                simp [hpr.1, hpr.2, he]
              rw [hx] at this
              exact absurd this (by simp)
          · intro hxr hfrag
            exfalso
            subst hxr
            have hmem := List.mem_of_find?_eq_some hf
            have hfs := List.find?_some hf
            simp only [Bool.and_eq_true, beq_iff_eq] at hfs
            have : fragMatches x s2 = true := by
              unfold fragMatches
              simp [hfs.1, hfs.2, he]
            rw [hpend s2 hmem] at this
            exact absurd this (by simp)
        | none =>
          rw [hf] at h
          simp only [Except.ok.injEq] at h
          subst h
          constructor
          · intro hr
            exact List.mem_append_left _ hr
          · intro hxr _
            subst hxr
            exact List.mem_append_right _ (List.mem_singleton.2 rfl)
      · rw [if_neg he] at h
        simp only [Except.ok.injEq] at h
        subst h
        constructor
        · intro hr
          exact hr
        · intro hxr hfrag
          exfalso
          subst hxr
          unfold isFrag at hfrag
          rw [Bool.eq_false_iff.2 hs, Bool.eq_false_iff.2 he] at hfrag
          exact absurd hfrag (by simp)

theorem decodeRows_keep (S : RawRow → Prop) (r : RawRow) :
    ∀ (rows : List RawRow) (st st' : DecState),
      decodeRows st rows = .ok st' →
      (∀ p ∈ st.pend, S p) → (∀ x ∈ rows, S x) →
      (∀ x, S x → fragMatches r x = false) →
      (r ∈ st.pend → r ∈ st'.pend) ∧ (r ∈ rows → isFrag r = true → r ∈ st'.pend) := by
  intro rows
  induction rows with
  | nil =>
    intro st st' h hpend _ _
    simp only [decodeRows, Except.ok.injEq] at h
    subst h
    exact ⟨id, fun hmem _ => absurd hmem (by simp)⟩
  | cons x rs ih =>
    intro st st' h hpend hrows hmatch
    unfold decodeRows at h
    cases hst : stepRow st x with
    | error e => rw [hst] at h; exact absurd h (by simp)
    | ok st₁ =>
      rw [hst] at h
      have hSx : S x := hrows x (List.mem_cons_self _ _)
      obtain ⟨hkeep, henter⟩ :=
        stepRow_keep hst (fun p hp => hmatch p (hpend p hp)) (hmatch x hSx)
      have hpend₁ : ∀ p ∈ st₁.pend, S p := by
        intro p hp
        rcases (stepRow_shape hst).1 p hp with hmem | heq
        · exact hpend p hmem
        · exact heq ▸ hSx
      obtain ⟨ih1, ih2⟩ := ih st₁ st' h hpend₁
        (fun y hy => hrows y (List.mem_cons_of_mem _ hy)) hmatch
      constructor
      · intro hr
        exact ih1 (hkeep hr)
      · intro hr hfrag
        rcases List.mem_cons.1 hr with heq | hmem
        · exact ih1 (henter heq.symm hfrag)
        · exact ih2 hmem hfrag

/-- **C8.**  (i) A window holding a RangeDeleteStart fragment and a
RangeDeleteEnd fragment sharing one batch id decodes to exactly one logical
range-delete LogEntry carrying both clustering-key bounds and both
inclusivity flags, holding nothing back.  (ii) Every range-delete LogEntry a
window emits originates from a matched start/end fragment pair of the window
or the held-back fragments, each contributing its own bound and inclusivity
flag — no fragment is ever emitted incomplete.  (iii) A fragment with no
matching counterpart anywhere in the window or the held-back fragments is
held back to the next window. -/
theorem range_delete_reconstruction :
    (∀ (b t1 s1 f1 t2 s2 f2 : Nat) (lo hi : CqlValue) (loI hiI : Bool),
      decodeWindow [] [startFrag b t1 s1 f1 lo loI, endFrag b t2 s2 f2 hi hiI]
        = .ok ([{ op := .rangeDelete [lo] loI [hi] hiI, ts := t2, batchSeq := s2,
                  cols := [] }], [])) ∧
      (∀ (pending rows : List RawRow) (out : List LogEntry) (pend' : List RawRow),
        decodeWindow pending rows = .ok (out, pend') →
        ∀ e ∈ out, RangeOrigin (fun q => q ∈ pending ∨ q ∈ rows) e) ∧
      (∀ (pending rows : List RawRow) (out : List LogEntry) (pend' : List RawRow)
        (r : RawRow), decodeWindow pending rows = .ok (out, pend') →
        isFrag r = true →
        (∀ x, (x ∈ pending ∨ x ∈ rows) → fragMatches r x = false) →
        (r ∈ pending ∨ r ∈ rows) → r ∈ pend') := by
  refine ⟨?_, ?_, ?_⟩
  · intro b t1 s1 f1 t2 s2 f2 lo hi loI hiI
    simp [decodeWindow, decodeRows, stepRow, nonFrozenCol, isStart, isEnd, startFrag,
      endFrag, pairEntry, RawRow.bound, inclOf, removeFirst, Except.map]
  · intro pending rows out pend' h e he
    unfold decodeWindow at h
    cases hd : decodeRows { pend := pending, out := [] } rows with
    | error er => rw [hd] at h; exact absurd h (by simp [Except.map])
    | ok st =>
      rw [hd] at h
      simp only [Except.map, Except.ok.injEq, Prod.mk.injEq] at h
      obtain ⟨hout, hpend⟩ := h
      have := decodeRows_range_origin (fun q => q ∈ pending ∨ q ∈ rows) rows _ st hd
        (fun p hp => .inl hp) (fun x hx => .inr hx) (by simp)
      exact this.2 e (hout ▸ he)
  · intro pending rows out pend' r h hfrag hmatch hmem
    unfold decodeWindow at h
    cases hd : decodeRows { pend := pending, out := [] } rows with
    | error er => rw [hd] at h; exact absurd h (by simp [Except.map])
    | ok st =>
      rw [hd] at h
      simp only [Except.map, Except.ok.injEq, Prod.mk.injEq] at h
      obtain ⟨hout, hpend⟩ := h
      have := decodeRows_keep (fun q => q ∈ pending ∨ q ∈ rows) r rows _ st hd
        (fun p hp => .inl hp) (fun x hx => .inr hx) hmatch
      rcases hmem with hp | hr
      · exact hpend ▸ this.1 hp
      · exact hpend ▸ this.2 hr hfrag

/-- Witness for C8: a delete over clustering keys `[2,5)` (start bound 2
inclusive, end bound 5 exclusive, two fragments sharing batch id 7) decodes
to exactly one range-delete LogEntry; a lone start fragment with no
counterpart is held back. -/
theorem range_delete_reconstruction_witness :
    decodeWindow [] [startFrag 7 1 0 0 (.int 2) true, endFrag 7 1 1 0 (.int 5) false]
        = .ok ([{ op := .rangeDelete [.int 2] true [.int 5] false, ts := 1,
                  batchSeq := 1, cols := [] }], []) ∧
      startFrag 9 1 0 0 (.int 2) true ∈ [startFrag 9 1 0 0 (.int 2) true] :=
  ⟨range_delete_reconstruction.1 7 1 0 0 1 1 0 (.int 2) (.int 5) true false,
   range_delete_reconstruction.2.2 [] [startFrag 9 1 0 0 (.int 2) true] []
     [startFrag 9 1 0 0 (.int 2) true] (startFrag 9 1 0 0 (.int 2) true)
     (by decide) (by decide)
     (by
       intro x hx
       rcases hx with h | h
       · exact absurd h (by simp)
       · rw [List.mem_singleton] at h
         subst h
         decide)
     (.inr (by decide))⟩

/-! ## C9: consume_cdc on mismatching rows -/

/-- Counterexample for C9 as stated: a CDCRow whose partition-key
extraction, conversion and dequeue all succeed, but whose expected
clustering-key column "ck" has no value in the row — a clustering-key
mismatch — makes `consume_cdc` panic (the `.expect` on `get_value`), so it
does not return `Ok(())`. -/
theorem consume_cdc_mismatch_counterexample :
    ((rowCkNull.takeValue "pk").1 = some (.int 1) ∧
        fromCqlInt (.int 1) = some 1 ∧
        lookupOps opsCkMap 1 = some [(.insert, [("ck", .int 1)], [])]) ∧
      (consume_cdc fromCqlInt opsCkMap "pk" rowCkNull).result = .panicked ∧
      (consume_cdc fromCqlInt opsCkMap "pk" rowCkNull).result ≠ .ok := by
  refine ⟨⟨by decide, by decide, by decide⟩, by decide, by decide⟩

/-- **C9 (amended).**  For every CDCRow whose partition-key extraction,
conversion and expected-operation dequeue all succeed, and whose
clustering-key and value checks both run to completion (every clustering-key
column listed in the expected operation, and every column the expected
operation lists with a value, has a value in the row — otherwise the
harness's `unwrap`/`expect` panics), `consume_cdc` returns `Ok(())` even
when the operation type, clustering-key values, or column values do not
match: each mismatch only appends its message to stderr via `fail_test`,
the expected operation stays dequeued, and no `Err` is produced. -/
theorem consume_cdc_mismatch_only_prints {T : Type} [DecidableEq T]
    (fromCql : CqlValue → Option T) (ops : OpsMap T) (pk : String) (row : LogEntry)
    (raw : CqlValue) (pkVal : T) (op : Operation) (rest : List Operation)
    (ckOk valsOk : Bool)
    (h1 : (row.takeValue pk).1 = some raw)
    (h2 : fromCql raw = some pkVal)
    (h3 : lookupOps ops pkVal = some (op :: rest))
    (h4 : checkCk op.2.1 (row.takeValue pk).2 = some ckOk)
    (h5 : checkVals op.2.2 (row.takeValue pk).2 = some valsOk) :
    consume_cdc fromCql ops pk row =
      { result := .ok, ops := setOps ops pkVal rest,
        stderr := (if op.1 = ((row.takeValue pk).2).operation then []
            else ["Operation type not matching."])
          ++ (if ckOk then [] else ["Clustering keys not matching."])
          ++ (if valsOk then [] else ["Values not matching."]) } := by
  unfold consume_cdc
  rw [h1]
  simp only [h2, h3, h4, h5, List.append_assoc]

/-- Witness for C9 (amended): an operation-type mismatch (expected Insert,
row is UpdateRow) returns `Ok(())`, pops the expected operation, and only
prints "Operation type not matching.". -/
theorem consume_cdc_mismatch_only_prints_witness :
    consume_cdc fromCqlInt [((1 : Int), [(.insert, [("ck", .int 1)], [])])] "pk"
        rowOpMismatch =
      { result := .ok, ops := [((1 : Int), [])],
        stderr := ["Operation type not matching."] } := by
  have h := consume_cdc_mismatch_only_prints fromCqlInt
    [((1 : Int), [(.insert, [("ck", .int 1)], [])])] "pk" rowOpMismatch
    (.int 1) 1 (.insert, [("ck", .int 1)], []) [] true true
    (by decide) (by decide) (by decide) (by decide) (by decide)
  rw [h]
  decide

/-! ## C10: consumers of one factory share one operations map -/

theorem lookup_setOps {T : Type} [DecidableEq T] :
    ∀ (m : OpsMap T) (k : T) (q v : List Operation),
      lookupOps m k = some v → lookupOps (setOps m k q) k = some q := by
  intro m
  induction m with
  | nil => intro k q v h; exact absurd h (by simp [lookupOps])
  | cons c m ih =>
    intro k q v h
    obtain ⟨k', v'⟩ := c
    unfold setOps
    by_cases hk : k' = k
    · rw [if_pos hk]
      simp [lookupOps, hk]
    · rw [if_neg hk]
      unfold lookupOps at h ⊢
      rw [if_neg hk] at h ⊢
      exact ih k q v h

theorem consume_cdc_pops {T : Type} [DecidableEq T] (fromCql : CqlValue → Option T)
    (ops : OpsMap T) (pk : String) (row : LogEntry) (raw : CqlValue) (pkVal : T)
    (op : Operation) (rest : List Operation)
    (h1 : (row.takeValue pk).1 = some raw)
    (h2 : fromCql raw = some pkVal)
    (h3 : lookupOps ops pkVal = some (op :: rest)) :
    (consume_cdc fromCql ops pk row).ops = setOps ops pkVal rest := by
  unfold consume_cdc
  rw [h1]
  simp only [h2, h3]
  cases hc : checkCk op.2.1 (row.takeValue pk).2 with
  | none => simp [hc]
  | some b =>
    cases hv : checkVals op.2.2 (row.takeValue pk).2 with
    | none => simp [hc, hv]
    | some b2 => simp [hc, hv]

/-- **C10.**  Every Consumer returned by `TestConsumerFactory::new_consumer`
holds a clone of the same shared cell (`Arc<Mutex<HashMap>>`) of expected
operations as the factory itself, so all consumers created by one factory
share one mutable operations map: after one of them consumes a row that
dequeues an operation, that operation is no longer observable through any
other consumer of the same factory — the lookup through the second
consumer's cell sees only the remaining queue. -/
theorem consumers_share_operations {T : Type} [DecidableEq T]
    (fromCql : CqlValue → Option T) (f : TestConsumerFactory T) (store : Store T)
    (row : LogEntry) (raw : CqlValue) (pkVal : T) (op : Operation)
    (rest : List Operation)
    (h1 : (row.takeValue f.pk).1 = some raw)
    (h2 : fromCql raw = some pkVal)
    (h3 : lookupOps (store f.read_operations) pkVal = some (op :: rest)) :
    let c1 := f.new_consumer
    let c2 := f.new_consumer
    c1.read_operations = f.read_operations ∧
      c2.read_operations = c1.read_operations ∧
      lookupOps ((c1.consume fromCql store row).2.1 c2.read_operations) pkVal
        = some rest := by
  intro c1 c2
  refine ⟨rfl, rfl, ?_⟩
  unfold TestConsumer.consume
  simp only []
  rw [if_pos trivial]
  show lookupOps (consume_cdc fromCql (store f.read_operations) f.pk row).ops pkVal
    = some rest
  rw [consume_cdc_pops fromCql _ _ _ raw pkVal op rest h1 h2 h3]
  exact lookup_setOps _ _ _ _ h3

/-- Witness for C10: after one consumer of the factory at cell 0 consumes
the row for pk 1, the other consumer of the same factory observes the
emptied queue. -/
theorem consumers_share_operations_witness :
    let f : TestConsumerFactory Int := { read_operations := 0, pk := "pk" }
    let c1 := f.new_consumer
    let c2 := f.new_consumer
    c1.read_operations = f.read_operations ∧
      c2.read_operations = c1.read_operations ∧
      lookupOps ((c1.consume fromCqlInt c10Store rowShared).2.1 c2.read_operations) 1
        = some [] :=
  consumers_share_operations fromCqlInt { read_operations := 0, pk := "pk" }
    c10Store rowShared (.int 1) 1 (.insert, [], []) []
    (by decide) (by decide) (by decide)

end ScyllaCdc

